import Mathlib

set_option maxHeartbeats 1000000

/-! Verification of the Rectify automated-program-repair harness.

The development shallowly embeds the data model and the operations of the
repository (`realm/d4j.py`, `realm/repair.py`, `realm/runner.py`) and proves
the stated properties about them.  Helper functions living in modules that the
repository only re-exports (`realm.utils`, `realm.lsp.text`, the `results`
value classes) are modelled from the specification; each such definition is
marked in its doc comment. -/

/-! Section 1: the unified-diff model and the hunk-extraction algorithm of
`BuggyFile.from_patch_file` (d4j.py). -/

/-- Modelled from the spec: one line of a unified diff as exposed by the
external diff-parsing library (`unidiff.patch.Line`).  `value` is the line
text without its leading diff marker; the code strips the marker with an
index-1 slice of the rendered line. -/
structure DiffLine where
  is_added : Bool
  is_removed : Bool
  is_context : Bool
  source_line_no : Option Nat
  target_line_no : Option Nat
  value : String
  deriving DecidableEq, Repr

/-- Helper for `takeWhileTwo`: consume while the unary predicate holds of each
element and the pairwise predicate holds of each consecutive pair, threading
the previously accepted element. -/
def takeWhileTwoGo (p1 : DiffLine → Bool) (p2 : DiffLine → DiffLine → Bool) :
    DiffLine → List DiffLine → List DiffLine × List DiffLine
  | _, [] => ([], [])
  | last, x :: xs =>
    if p1 x && p2 last x then
      let r := takeWhileTwoGo p1 p2 x xs
      (x :: r.1, r.2)
    else ([], x :: xs)

/-- Modelled from the spec: `utils.take_while_two` consumes a lazy sequence
while each element individually satisfies `p1` and each consecutive pair
satisfies `p2`, returning the consumed run together with the remaining
sequence.  The head of the remaining sequence, when present, has already been
pulled from the underlying iterator in order to test the predicates on it. -/
def takeWhileTwo (p1 : DiffLine → Bool) (p2 : DiffLine → DiffLine → Bool) :
    List DiffLine → List DiffLine × List DiffLine
  | [] => ([], [])
  | x :: xs =>
    if p1 x then
      let r := takeWhileTwoGo p1 p2 x xs
      (x :: r.1, r.2)
    else ([], x :: xs)

/-- Respective line number of a diff line: source numbering for removed lines,
target numbering otherwise. -/
def lineNo (l : DiffLine) : Option Nat :=
  if l.is_removed then l.source_line_no else l.target_line_no

/-- Modelled from the spec: `utils.line_consecutive` holds when the right
line's respective line number is exactly one greater than the left line's. -/
def line_consecutive (lhs rhs : DiffLine) : Bool :=
  match lineNo lhs, lineNo rhs with
  | some a, some b => b == a + 1
  | _, _ => false

/-- One contiguous edit extracted from a historical patch (d4j.py `Change`). -/
structure Change where
  start : Nat
  removed_lines : List String
  added_lines : List String
  deriving DecidableEq, Repr

/-- One modified file of a bug's historical patch (d4j.py `BuggyFile`). -/
structure BuggyFile where
  path : String
  changes : List Change
  deriving DecidableEq, Repr

/-- Modelled from the spec: the part of `unidiff.PatchedFile` the extraction
algorithm reads, with the hunks' lines flattened in order. -/
structure PatchedFile where
  source_file : String
  lines : List DiffLine
  deriving Repr

/-- Emit one `Change` from the collected removed/added runs, mirroring the
body of the main loop of `BuggyFile.from_patch_file`: optionally swap the two
runs (`reversed` direction), compute `start` from the last context line for a
pure insertion and from the first removed line otherwise, and strip the diff
markers.  `none` models a failed assertion or an out-of-range index. -/
def mkChange (rev : Bool) (lastCtx : DiffLine) (removedL addedL : List DiffLine) :
    Option Change :=
  let p := if rev then (addedL, removedL) else (removedL, addedL)
  let startOpt : Option Nat :=
    if p.1.isEmpty && !p.2.isEmpty then
      (if rev then lastCtx.target_line_no else lastCtx.source_line_no).map (1 + ·)
    else
      p.1.head? >>= fun h => if rev then h.target_line_no else h.source_line_no
  startOpt.map fun s => ⟨s, p.1.map (·.value), p.2.map (·.value)⟩

/-- Main loop of `BuggyFile.from_patch_file` over the flattened line stream.
The iterator semantics of the source are made explicit: each run extraction
also pulls the first failing element out of the shared iterator, and the loop
then resumes from the untouched remainder, so that pulled element is dropped
(`rem.tail`).  The fuel argument bounds the iteration; each step consumes at
least one line, so an initial fuel of the line count suffices. -/
def fromLoop (rev : Bool) :
    Nat → DiffLine → List DiffLine → List Change → Option (List Change)
  | 0, _, _, _ => none
  | _ + 1, _, [], acc => some acc
  | fuel + 1, lastCtx, startLine :: rest, acc =>
    if startLine.is_added then
      if !lastCtx.is_context then none
      else
        let r := takeWhileTwo (fun _ => true) line_consecutive (startLine :: rest)
        match mkChange rev lastCtx [] r.1 with
        | none => none
        | some ch => fromLoop rev fuel lastCtx r.2.tail (acc ++ [ch])
    else if startLine.is_removed then
      if !lastCtx.is_context then none
      else
        let r1 := takeWhileTwo (fun _ => true) line_consecutive (startLine :: rest)
        let r2 := takeWhileTwo (·.is_added) line_consecutive r1.2
        match mkChange rev lastCtx r1.1 r2.1 with
        | none => none
        | some ch => fromLoop rev fuel lastCtx r2.2.tail (acc ++ [ch])
    else if startLine.is_context then
      fromLoop rev fuel startLine rest acc
    else
      fromLoop rev fuel lastCtx rest acc

/-- Strip a leading `a/` or `b/` diff path marker (the nested helper of
`from_patch_file`). -/
def stripDiffPre (s : String) : String :=
  match s.data with
  | 'a' :: '/' :: rest => String.mk rest
  | 'b' :: '/' :: rest => String.mk rest
  | _ => s

/-- Embedding of `BuggyFile.from_patch_file`: the first line of the stream is
taken as the initial `last_context`, the loop runs until the stream is
exhausted, and the resulting changes are paired with the prefix-stripped
source path. -/
def from_patch_file (rev : Bool) (pf : PatchedFile) : Option BuggyFile :=
  match pf.lines with
  | [] => some ⟨stripDiffPre pf.source_file, []⟩
  | first :: rest =>
    (fromLoop rev (rest.length + 1) first rest []).map fun chs =>
      ⟨stripDiffPre pf.source_file, chs⟩

/-- Build a context line with the given source/target numbers. -/
def ctxLine (src tgt : Nat) (v : String) : DiffLine :=
  ⟨false, false, true, some src, some tgt, v⟩

/-- Build a removed line with the given source number. -/
def remLine (src : Nat) (v : String) : DiffLine :=
  ⟨false, true, false, some src, none, v⟩

/-- Build an added line with the given target number. -/
def addLine (tgt : Nat) (v : String) : DiffLine :=
  ⟨true, false, false, none, some tgt, v⟩

/-- A patch whose single hunk replaces the two consecutive source lines 10 and
11 with one added line, surrounded by context lines. -/
def patchTwoForOne : PatchedFile :=
  ⟨"a/src/Foo.java",
    [ctxLine 9 9 "ctx", remLine 10 "old1", remLine 11 "old2",
     addLine 10 "new1", ctxLine 12 11 "ctx2"]⟩

/-! Section 2: `Defects4J` derived bug sets, `Defects4J.checkout`, and the
bug filter of `Repairer.repair`. -/

/-- One benchmark bug (d4j.py `Bug`): its parsed buggy files and the path of
its checked-out working copy. -/
structure Bug where
  buggy_files : List BuggyFile
  proj_path : String
  deriving DecidableEq, Repr

/-- Filter predicate of `single_hunk_bugs` in `Defects4J.__init__`: exactly
one modified file holding exactly one change. -/
def isSingleHunk (b : Bug) : Bool :=
  match b.buggy_files with
  | [f] => f.changes.length == 1
  | _ => false

/-- Embedding of `Defects4J.single_hunk_bugs`, with the bug mapping as an
association list in iteration order. -/
def single_hunk_bugs (all_bugs : List (String × Bug)) : List (String × Bug) :=
  all_bugs.filter fun e => isSingleHunk e.2

/-- Filter predicate of `single_line_bugs` in `Defects4J.__init__`: the first
change of the first buggy file has exactly one added line.  The source indexes
`buggy_files[0].changes[0]` directly; on the `single_hunk_bugs` domain those
indices always exist. -/
def isSingleLine (b : Bug) : Bool :=
  (((b.buggy_files.head?.bind fun f => f.changes.head?).map
    fun c => c.added_lines.length == 1).getD false)

/-- Embedding of `Defects4J.single_line_bugs`. -/
def single_line_bugs (all_bugs : List (String × Bug)) : List (String × Bug) :=
  (single_hunk_bugs all_bugs).filter fun e => isSingleLine e.2

/-- Commands that `Defects4J.checkout` issues on a project working copy. -/
inductive RepoCmd where
  | gitResetHard
  | gitCleanXfd
  | d4jCheckout (proj : String) (idStr : String) (buggy : Bool)
  deriving DecidableEq, Repr

/-- Embedding of `Defects4J.checkout`: the sequence of working-copy commands
it issues, in order — a hard reset (`git checkout HEAD -f .`), the benchmark
checkout subprocess, a hard reset again, and an untracked-file clean
(`git clean -xfd`). -/
def checkoutCmds (proj idStr : String) (buggy : Bool) : List RepoCmd :=
  [RepoCmd.gitResetHard,
   RepoCmd.d4jCheckout proj idStr buggy,
   RepoCmd.gitResetHard,
   RepoCmd.gitCleanXfd]

/-- Command sequence asserted by the claim about `Defects4J.checkout`: reset
and clean both before and after the benchmark checkout. -/
def claimedCheckoutCmds (proj idStr : String) (buggy : Bool) : List RepoCmd :=
  [RepoCmd.gitResetHard,
   RepoCmd.gitCleanXfd,
   RepoCmd.d4jCheckout proj idStr buggy,
   RepoCmd.gitResetHard,
   RepoCmd.gitCleanXfd]

/-- Modelled from the regex library's semantics: `re.fullmatch` with the
pattern `".*"` accepts exactly the strings containing no newline character. -/
def dotStarFullmatch (s : String) : Bool :=
  !s.data.contains '\n'

/-- Embedding of the bug selection in `Repairer.repair`: keep the considered
bug ids that fully match the configured pattern and are not the hard-excluded
`"Lang-25"`. -/
def bugsToRepair (accepted : String → Bool) (consideredIds : List String) :
    List String :=
  consideredIds.filter fun bugId => accepted bugId && bugId != "Lang-25"

/-- A patch whose single hunk replaces one removed line (source number 10)
with two added lines; parsed in the reversed direction (as `Defects4J` does)
it yields a change with one added line and two removed lines. -/
def patchOneForTwo : PatchedFile :=
  ⟨"a/src/Foo.java",
    [ctxLine 9 9 "ctx", remLine 10 "old",
     addLine 10 "new1", addLine 11 "new2", ctxLine 11 12 "ctx2"]⟩

/-- Buggy file arising from `patchOneForTwo` in the reversed direction. -/
def cexBuggyFile : BuggyFile :=
  ⟨"src/Foo.java", [⟨10, ["new1", "new2"], ["old"]⟩]⟩

/-- A bug whose single change adds one line but removes two. -/
def cexBug : Bug :=
  ⟨[cexBuggyFile], "/tmp/X-1"⟩

/-- A one-bug benchmark containing `cexBug`. -/
def cexAllBugs : List (String × Bug) :=
  [("X-1", cexBug)]

/-! Section 3: the text-buffer model and `remove_buggy_hunk` (repair.py). -/

/-- File content as a character list. -/
abbrev Content := List Char

/-- Offset of the start of line `l` (0-based) in the content, when that line
exists: line 0 starts at offset 0, and each newline character ends a line. -/
def lineStart : Content → Nat → Option Nat
  | _, 0 => some 0
  | [], _ + 1 => none
  | c :: cs, l + 1 =>
    if c = '\n' then (lineStart cs l).map (· + 1)
    else (lineStart cs (l + 1)).map (· + 1)

/-- Modelled from the spec: `TextFile.form_index` translates a (line, column)
position into a character offset, assuming the position lies within the
current content bounds. -/
def form_index (content : Content) (line col : Nat) : Nat :=
  (lineStart content line).getD content.length + col

/-- Modelled from the spec: `TextFile.refine_index`, the clamped best-effort
variant of `form_index`, tolerant of positions at the end of the file. -/
def refine_index (content : Content) (line col : Nat) : Nat :=
  min ((lineStart content line).getD content.length + col) content.length

/-- Modelled from the spec: the in-memory text file of `realm.lsp.text`: the
full content plus a cursor offset (the path plays no role here). -/
structure TextFile where
  content : Content
  cursor : Nat
  deriving DecidableEq, Repr

/-- Modelled from the spec: `TextFile.change` applied to one range
replacement, the range given as (line, column) positions. -/
def textFileChange (tf : TextFile) (startL startC endL endC : Nat)
    (text : Content) : TextFile :=
  let s := refine_index tf.content startL startC
  let e := refine_index tf.content endL endC
  ⟨tf.content.take s ++ text ++ tf.content.drop e, tf.cursor⟩

/-- Modelled from the spec: `TextFile.move_cursor`. -/
def move_cursor (tf : TextFile) (offset : Nat) : TextFile :=
  ⟨tf.content, offset⟩

/-- Embedding of `remove_buggy_hunk` (repair.py): compute the zero-based
start/end line span of the change, translate the span boundaries to character
offsets, take the text before the span as the returned first component and a
newline plus the text after the span as the second, replace the span with a
single newline and move the cursor to the boundary offset. -/
def remove_buggy_hunk (tf : TextFile) (ch : Change) :
    Content × Content × TextFile :=
  let startLn := ch.start - 1
  let endLn := startLn + ch.removed_lines.length
  let start_index := form_index tf.content startLn 0
  let end_index := form_index tf.content endLn 0
  let pre := tf.content.take start_index
  let suf := '\n' :: tf.content.drop end_index
  let changed := textFileChange tf startLn 0 endLn 0 ['\n']
  (pre, suf, move_cursor changed start_index)

/-- Demonstration content `a\nb\nc\nd\n` used to instantiate the hunk-removal
invariants. -/
def demoContent : Content :=
  ['a', '\n', 'b', '\n', 'c', '\n', 'd', '\n']

/-! Section 4: the incremental deduplication of `Runner.transform`.  The
per-rank candidates consumed by the loop are the output of `iter_files`; a
candidate is taken here as its per-file groups of per-hunk outcomes, the only
part the deduplication logic reads. -/

/-- Modelled from the spec: one hunk's averaged synthesis outcome as read by
`transform` — `hunk` is the synthesized text, `none` when the synthesis was
not successful. -/
structure AvgHunkResult where
  hunk : Option String
  deriving DecidableEq, Repr

/-- Modelled from the spec: one file's hunk outcomes at one rank
(`AvgFilePatch` restricted to what `transform` reads). -/
structure FilePatchIn where
  hunks : List AvgHunkResult
  deriving DecidableEq, Repr

/-- One full-bug candidate patch at one rank: its per-file groups. -/
abbrev Candidate := List FilePatchIn

/-- A candidate is broken when any hunk of any of its files lacks synthesized
text (the `any` guard in `Runner.transform`). -/
def isBroken (p : Candidate) : Bool :=
  p.any fun f => f.hunks.any fun h => h.hunk.isNone

/-- Concatenated synthesized text of a candidate across all files and hunks
in encounter order (the join in `Runner.transform`). -/
def concatHunks (p : Candidate) : String :=
  String.join ((p.flatMap fun f => f.hunks).map fun h => h.hunk.getD "")

/-- One transformed candidate patch with its duplicate flag (`AvgPatch` as
built by `Runner.transform`). -/
structure AvgPatch where
  file_patches : Candidate
  is_duplicate : Bool
  deriving DecidableEq, Repr

/-- Per-bug transform state: the transformed patches of the bug and the seen
concatenated-text set (its `all_appeared` entry). -/
abbrev TransState := List AvgPatch × List String

/-- One loop iteration of `Runner.transform` for one candidate patch: a
broken candidate is appended as not-duplicate and leaves the seen set
unchanged; an unbroken one is a duplicate exactly when its concatenated text
was already seen, and otherwise records its text as seen. -/
def transformStep (st : TransState) (p : Candidate) : TransState :=
  if isBroken p then (st.1 ++ [⟨p, false⟩], st.2)
  else if st.2.contains (concatHunks p) then (st.1 ++ [⟨p, true⟩], st.2)
  else (st.1 ++ [⟨p, false⟩], st.2 ++ [concatHunks p])

/-- Per-bug body of `Runner.transform`: ranks below the number of already
transformed patches are skipped (`patch_idx < len(patches)` resume guard),
the remaining ranks are processed in order. -/
def transformBug (cands : List Candidate) (st : TransState) : TransState :=
  (cands.drop st.1.length).foldl transformStep st

/-- Whole-report `Runner.transform`: fold the per-bug transformation over the
raw repair results, the transformed result being kept as a total map from
bug id to per-bug state (a bug not yet present maps to the empty state,
mirroring the `setdefault` calls). -/
def transformReport (raw : List (String × List Candidate))
    (st : String → TransState) : String → TransState :=
  raw.foldl (fun acc e => fun b =>
    if e.1 = b then transformBug e.2 (acc e.1) else acc b) st

/-- Specification of the duplicate flag: candidate `p` at rank `i` is a
duplicate when it is not broken and some earlier non-broken candidate has the
same concatenated hunk text. -/
def dupSpec (cands : List Candidate) (i : Nat) (p : Candidate) : Prop :=
  isBroken p = false ∧
    ∃ j q, j < i ∧ cands[j]? = some q ∧ isBroken q = false ∧
      concatHunks q = concatHunks p

/-- The per-bug raw candidate streams of `b` in the raw result mapping. -/
def candsFor (b : String) (raw : List (String × List Candidate)) :
    List (List Candidate) :=
  raw.filterMap fun e => if e.1 = b then some e.2 else none

/-- A candidate patch with synthesized text `t` for its single hunk. -/
def oneHunkCand (t : String) : Candidate :=
  [⟨[⟨some t⟩]⟩]

/-- A broken candidate patch: its single hunk has no synthesized text. -/
def brokenCand : Candidate :=
  [⟨[⟨none⟩]⟩]

/-- Demonstration candidate stream: two distinct texts, a repeat of the
first, and a broken candidate. -/
def demoCands : List Candidate :=
  [oneHunkCand "X", oneHunkCand "Y", oneHunkCand "X", brokenCand]

/-! Section 5: the work selection and round-robin scheduling of
`Runner.validate`. -/

/-- Modelled from the spec: the derived `is_broken` flag of `AvgPatch` — some
constituent hunk lacks synthesized text. -/
def AvgPatch.is_broken (p : AvgPatch) : Bool :=
  isBroken p.file_patches

/-- Fuel-bounded helper for `chunked`; fuel equal to the input length
suffices for a positive chunk size. -/
def chunkedAux {α : Type} (n : Nat) : Nat → List α → List (List α)
  | 0, _ => []
  | _ + 1, [] => []
  | fuel + 1, x :: xs => ((x :: xs).take n) :: chunkedAux n fuel ((x :: xs).drop n)

/-- Modelled from the spec: `utils.chunked` splits a sequence into groups of
`n` consecutive elements, the last group possibly shorter. -/
def chunked {α : Type} (n : Nat) (l : List α) : List (List α) :=
  chunkedAux n l.length l

/-- A pending validation work item of `Runner.validate`: bug id, patch rank
and the patch itself. -/
abbrev WorkItem := String × Nat × AvgPatch

/-- Pending queue of one bug in `Runner.validate`: its enumerated patches
that are not duplicate, not broken and not yet validated. -/
def pendingQueue (validated : String → Nat → Bool) (bid : String)
    (patches : List AvgPatch) : List WorkItem :=
  patches.enum.filterMap fun ie =>
    if !ie.2.is_duplicate && !ie.2.is_broken && !validated bid ie.1
    then some (bid, ie.1, ie.2) else none

/-- Embedding of the selection loop of `Runner.validate`: one pending queue
per bug matching the pattern (possibly empty), in mapping order.  `validated`
tells whether a rank of a bug was already validated under any prior
validation config. -/
def unvalidatedResults (accepted : String → Bool)
    (validated : String → Nat → Bool)
    (transformed : List (String × List AvgPatch)) : List (List WorkItem) :=
  transformed.filterMap fun e =>
    if accepted e.1 then some (pendingQueue validated e.1 e.2) else none

/-- Round `k` of the interleaving: the `k`-th pending item of every bug that
still has one, in bug order (`zip_longest` with the `None` entries filtered
out). -/
def scheduleRound (lists : List (List WorkItem)) (k : Nat) : List WorkItem :=
  lists.filterMap fun l => l[k]?

/-- Length of the longest pending queue. -/
def maxQueueLen (lists : List (List WorkItem)) : Nat :=
  (lists.map List.length).foldr max 0

/-- All chunks dispatched to the parallel pool by `Runner.validate`: the
rounds in order, each split into chunks of at most `n_cores` items. -/
def scheduleChunks (nCores : Nat) (lists : List (List WorkItem)) :
    List (List WorkItem) :=
  ((List.range (maxQueueLen lists)).map (scheduleRound lists)).flatMap
    (chunked nCores)

/-- A non-duplicate, non-broken demonstration patch. -/
def demoPatch : AvgPatch := ⟨oneHunkCand "T", false⟩

/-- Demonstration transformed result: bug `A` with three pending patches and
bug `B` with one. -/
def demoTransformed : List (String × List AvgPatch) :=
  [("A", [demoPatch, demoPatch, demoPatch]), ("B", [demoPatch])]

/-- The first chunk scheduled from `demoTransformed` with two cores. -/
def demoChunk : List WorkItem :=
  [("A", 0, demoPatch), ("B", 0, demoPatch)]

/-! Section 6: `validate_patch` (runner.py), modelled over an environment
standing for the external parser, compiler and test runner. -/

/-- Outcome classification of one validation attempt (the `Outcome` enum of
the results data model). -/
inductive Outcome where
  | ParseError
  | CompilationError
  | TestingError
  | Success
  deriving DecidableEq, Repr

/-- Result record of one validation attempt; the elapsed-time field is
omitted, the model being time-free. -/
structure PatchValidationResult where
  outcome : Outcome
  stdout : String
  stderr : String
  deriving DecidableEq, Repr

/-- Modelled from the spec: the verdict of the external Java parser on one
file text — success, a recognized syntax or lexical error carrying its
message, or an unrecognized exception. -/
inductive ParseRes where
  | ok
  | syntaxOrLexError (msg : String)
  | otherError (msg : String)
  deriving DecidableEq, Repr

/-- Whether a parser verdict is one of the two recognized error kinds. -/
def ParseRes.isSynErr : ParseRes → Bool
  | .syntaxOrLexError _ => true
  | _ => false

/-- Environment of one `validate_patch` call: the parser verdict per file
text, the compile result (success flag, stdout, stderr) and the test result
(`none` models `subprocess.TimeoutExpired`; `some` carries success flag,
stdout, stderr). -/
structure ValidationEnv where
  parse : String → ParseRes
  compileRes : Bool × String × String
  testRes : Option (Bool × String × String)

/-- Observable run of `validate_patch`: the returned result, whether compile
and test were invoked, and the file texts written to the checked-out project
in order. -/
structure VPRun where
  result : PatchValidationResult
  compileInvoked : Bool
  testInvoked : Bool
  written : List String
  deriving DecidableEq, Repr

/-- The per-file loop of `validate_patch`: parse each candidate file text; a
recognized syntax or lexical error aborts immediately with its message and
the files written so far; otherwise (success, or an unrecognized exception
which is only logged) the file is written and the loop continues. -/
def parseWriteLoop (env : ValidationEnv) :
    List String → List String → (List String × String) ⊕ List String
  | [], written => Sum.inr written
  | f :: fs, written =>
    match env.parse f with
    | .syntaxOrLexError m => Sum.inl (written, m)
    | _ => parseWriteLoop env fs (written ++ [f])

/-- Embedding of `validate_patch` over the materialized file texts of one
candidate patch.  A recognized parse error returns `ParseError` with empty
stdout and the error text as stderr before compile or test run; a compile
failure returns `CompilationError` with the compile output; otherwise the
test either finishes (`Success` or `TestingError`, outputs joined to the
compile output by `rule`) or times out (`TestingError` with the literal
`"Timeout"` joined to the compile output by `rule`). -/
def validate_patch (rule : String) (env : ValidationEnv)
    (files : List String) : VPRun :=
  match parseWriteLoop env files [] with
  | Sum.inl pm =>
    ⟨⟨Outcome.ParseError, "", pm.2⟩, false, false, pm.1⟩
  | Sum.inr written =>
    let c := env.compileRes
    if !c.1 then
      ⟨⟨Outcome.CompilationError, c.2.1, c.2.2⟩, true, false, written⟩
    else
      match env.testRes with
      | some t =>
        ⟨⟨if t.1 then Outcome.Success else Outcome.TestingError,
          c.2.1 ++ rule ++ t.2.1, c.2.2 ++ rule ++ t.2.2⟩, true, true, written⟩
      | none =>
        ⟨⟨Outcome.TestingError, c.2.1 ++ rule ++ "Timeout",
          c.2.2 ++ rule ++ "Timeout"⟩, true, true, written⟩

/-- Environment whose parser rejects every text with a recognized error. -/
def envParseErr : ValidationEnv :=
  ⟨fun _ => ParseRes.syntaxOrLexError "bad token", (true, "", ""),
    some (true, "", "")⟩

/-- Environment whose parser accepts everything but whose compile fails. -/
def envCompileFail : ValidationEnv :=
  ⟨fun _ => ParseRes.ok, (false, "co", "ce"), some (true, "", "")⟩

/-- Environment whose compile succeeds and whose test run times out. -/
def envTimeout : ValidationEnv :=
  ⟨fun _ => ParseRes.ok, (true, "co", "ce"), none⟩

/-- Environment rejecting exactly the text `"bad"`. -/
def envTwoFiles : ValidationEnv :=
  ⟨fun s => if s = "bad" then ParseRes.syntaxOrLexError "msg" else ParseRes.ok,
    (true, "co", "ce"), some (true, "to", "te")⟩

/-- C3: for a patch whose single hunk replaces two consecutive removed lines
(original source line numbers 10 and 11) with one added line,
`from_patch_file` with `reversed = false` yields exactly one `Change` with
`start = 10`, two removed lines and one added line (markers stripped), and
with `reversed = true` it yields the two line lists swapped with `start`
computed from the target-side numbering. -/
theorem c3_hunk_extraction :
    from_patch_file false patchTwoForOne =
      some ⟨"src/Foo.java", [⟨10, ["old1", "old2"], ["new1"]⟩]⟩ ∧
    from_patch_file true patchTwoForOne =
      some ⟨"src/Foo.java", [⟨10, ["new1"], ["old1", "old2"]⟩]⟩ := by
  constructor <;> decide

/-- C4 counterexample: the command sequence actually issued by
`Defects4J.checkout` differs from the claimed one — no untracked-file clean is
issued before the benchmark checkout command. -/
theorem c4_checkout_counterexample :
    checkoutCmds "Chart" "11" true ≠ claimedCheckoutCmds "Chart" "11" true ∧
    RepoCmd.gitCleanXfd ∉
      (checkoutCmds "Chart" "11" true).takeWhile
        (fun c => c != RepoCmd.d4jCheckout "Chart" "11" true) := by
  decide

/-- C4 (amended): `Defects4J.checkout` issues a hard reset before the
benchmark checkout command, then the benchmark checkout for the buggy or
fixed revision, then a hard reset and an untracked-file clean after it; in
particular the clean runs only after the benchmark checkout. -/
theorem c4_checkout_command_order (proj idStr : String) (buggy : Bool) :
    checkoutCmds proj idStr buggy =
      [RepoCmd.gitResetHard, RepoCmd.d4jCheckout proj idStr buggy,
       RepoCmd.gitResetHard, RepoCmd.gitCleanXfd] := by
  rfl

/-- C7: with the pattern `".*"`, repairing never selects bug `"Lang-25"`,
while every other considered bug whose id fully matches the pattern is
selected; this holds for any considered bug set, hence for both values of
`hunk_only`. -/
theorem c7_lang25_excluded (consideredIds : List String) :
    "Lang-25" ∉ bugsToRepair dotStarFullmatch consideredIds ∧
    ∀ bugId ∈ consideredIds, bugId ≠ "Lang-25" →
      dotStarFullmatch bugId = true →
      bugId ∈ bugsToRepair dotStarFullmatch consideredIds := by
  constructor
  · intro hmem
    rw [bugsToRepair, List.mem_filter] at hmem
    simp at hmem
  · intro bugId hmem hne hmatch
    rw [bugsToRepair, List.mem_filter]
    refine ⟨hmem, ?_⟩
    simp [hmatch, hne]

/-- C7 witness: instantiating the exclusion theorem on a concrete considered
set containing `"Lang-25"` and `"Chart-11"`. -/
theorem c7_lang25_excluded_witness :
    "Lang-25" ∉ bugsToRepair dotStarFullmatch ["Lang-25", "Chart-11"] ∧
    "Chart-11" ∈ bugsToRepair dotStarFullmatch ["Lang-25", "Chart-11"] :=
  ⟨(c7_lang25_excluded ["Lang-25", "Chart-11"]).1,
   (c7_lang25_excluded ["Lang-25", "Chart-11"]).2 "Chart-11" (by decide)
     (by decide) (by decide)⟩

/-- C8 counterexample: a bug whose single change adds one line but removes
two is nevertheless placed in `single_line_bugs`, so membership there does
not imply a pure (removes-nothing) insertion.  The buggy file used is exactly
what reversed patch extraction produces on a one-line-for-two-lines fix. -/
theorem c8_single_line_counterexample :
    from_patch_file true patchOneForTwo = some cexBuggyFile ∧
    ("X-1", cexBug) ∈ single_line_bugs cexAllBugs ∧
    ((cexBug.buggy_files.head?.bind fun f => f.changes.head?).map
      fun c => c.removed_lines) = some ["new1", "new2"] := by
  refine ⟨by decide, by decide, by decide⟩

/-- C8 (amended): every bug in `single_line_bugs` is also in
`single_hunk_bugs` and in `all_bugs`; every bug in `single_hunk_bugs` has
exactly one buggy file containing exactly one change; and for every bug in
`single_line_bugs` that one change has exactly one added line (its removed
lines are unconstrained). -/
theorem c8_bug_set_invariants (all_bugs : List (String × Bug)) :
    (∀ e ∈ single_line_bugs all_bugs,
      e ∈ single_hunk_bugs all_bugs ∧ e ∈ all_bugs) ∧
    (∀ e ∈ single_hunk_bugs all_bugs,
      ∃ f c, e.2.buggy_files = [f] ∧ f.changes = [c]) ∧
    (∀ e ∈ single_line_bugs all_bugs,
      ∃ f c, e.2.buggy_files = [f] ∧ f.changes = [c] ∧
        c.added_lines.length = 1) := by
  have hhunk : ∀ e ∈ single_hunk_bugs all_bugs,
      ∃ f c, e.2.buggy_files = [f] ∧ f.changes = [c] := by
    intro e hmem
    rw [single_hunk_bugs, List.mem_filter] at hmem
    obtain ⟨-, hpred⟩ := hmem
    rw [isSingleHunk] at hpred
    split at hpred
    · next f heq =>
      refine ⟨f, ?_⟩
      match hc : f.changes with
      | [c] => exact ⟨c, heq, rfl⟩
      | [] => rw [hc] at hpred; simp at hpred
      | c1 :: c2 :: cs => rw [hc] at hpred; simp at hpred
    · simp at hpred
  have hline : ∀ e ∈ single_line_bugs all_bugs,
      e ∈ single_hunk_bugs all_bugs ∧ isSingleLine e.2 = true := by
    intro e hmem
    rw [single_line_bugs, List.mem_filter] at hmem
    exact hmem
  refine ⟨?_, hhunk, ?_⟩
  · intro e hmem
    have h1 := (hline e hmem).1
    refine ⟨h1, ?_⟩
    rw [single_hunk_bugs, List.mem_filter] at h1
    exact h1.1
  · intro e hmem
    obtain ⟨h1, h2⟩ := hline e hmem
    obtain ⟨f, c, hf, hc⟩ := hhunk e h1
    refine ⟨f, c, hf, hc, ?_⟩
    rw [isSingleLine, hf] at h2
    simp [hc] at h2
    exact h2

/-- C8 witness: instantiating the bug-set invariants on the concrete one-bug
benchmark `cexAllBugs`. -/
theorem c8_bug_set_invariants_witness :
    ("X-1", cexBug) ∈ single_hunk_bugs cexAllBugs ∧
    ("X-1", cexBug) ∈ cexAllBugs ∧
    ∃ f c, cexBug.buggy_files = [f] ∧ f.changes = [c] ∧
      c.added_lines.length = 1 := by
  have h := c8_bug_set_invariants cexAllBugs
  have hm : ("X-1", cexBug) ∈ single_line_bugs cexAllBugs := by decide
  obtain ⟨hin1, hin2⟩ := h.1 _ hm
  exact ⟨hin1, hin2, h.2.2 _ hm⟩

/-- Line-start offsets never exceed the content length. -/
theorem lineStart_le_length :
    ∀ (cs : Content) (l i : Nat), lineStart cs l = some i → i ≤ cs.length := by
  intro cs
  induction cs with
  | nil =>
    intro l i h
    cases l with
    | zero => simp [lineStart] at h; omega
    | succ l => simp [lineStart] at h
  | cons c cs ih =>
    intro l i h
    cases l with
    | zero => simp [lineStart] at h; omega
    | succ l =>
      rw [lineStart] at h
      split at h
      · obtain ⟨i', hi', rfl⟩ := Option.map_eq_some'.mp h
        have := ih l i' hi'
        simp
        omega
      · obtain ⟨i', hi', rfl⟩ := Option.map_eq_some'.mp h
        have := ih (l + 1) i' hi'
        simp
        omega

/-- The character just before the start of any line other than the first is a
newline. -/
theorem lineStart_pos_newline :
    ∀ (cs : Content) (l i : Nat), lineStart cs (l + 1) = some i →
      1 ≤ i ∧ cs[i - 1]? = some '\n' := by
  intro cs
  induction cs with
  | nil => intro l i h; simp [lineStart] at h
  | cons c cs ih =>
    intro l i h
    rw [lineStart] at h
    split at h
    · next hc =>
      subst hc
      obtain ⟨i', hi', rfl⟩ := Option.map_eq_some'.mp h
      refine ⟨by omega, ?_⟩
      cases l with
      | zero =>
        have : i' = 0 := by simp [lineStart] at hi'; omega
        subst this
        simp
      | succ l =>
        obtain ⟨h1, h2⟩ := ih l i' hi'
        obtain ⟨j, rfl⟩ : ∃ j, i' = j + 1 := ⟨i' - 1, by omega⟩
        simpa using h2
    · next hc =>
      obtain ⟨i', hi', rfl⟩ := Option.map_eq_some'.mp h
      obtain ⟨h1, h2⟩ := ih l i' hi'
      refine ⟨by omega, ?_⟩
      obtain ⟨j, rfl⟩ : ∃ j, i' = j + 1 := ⟨i' - 1, by omega⟩
      simpa using h2

/-- C6: for a `TextFile` and a `Change` describing a non-empty removed span
strictly inside the file (the span starts at line 1 or later, and both span
boundaries are starts of existing lines), `remove_buggy_hunk` returns a
prefix equal to all text before the removed region that ends in a newline,
and a suffix equal to a newline followed by all text after the removed
region; afterwards the character at the cursor and the character immediately
before the cursor are both newlines. -/
theorem c6_remove_buggy_hunk_invariants (tf : TextFile) (ch : Change)
    (s e : Nat) (hstart : 2 ≤ ch.start) (_hrem : ch.removed_lines ≠ [])
    (hs : lineStart tf.content (ch.start - 1) = some s)
    (he : lineStart tf.content (ch.start - 1 + ch.removed_lines.length) = some e) :
    (remove_buggy_hunk tf ch).1 = tf.content.take s ∧
    (remove_buggy_hunk tf ch).1.getLast? = some '\n' ∧
    (remove_buggy_hunk tf ch).2.1 = '\n' :: tf.content.drop e ∧
    (remove_buggy_hunk tf ch).2.2.cursor = s ∧
    (remove_buggy_hunk tf ch).2.2.content[(remove_buggy_hunk tf ch).2.2.cursor]? =
      some '\n' ∧
    (remove_buggy_hunk tf ch).2.2.content[(remove_buggy_hunk tf ch).2.2.cursor - 1]? =
      some '\n' := by
  obtain ⟨l, hl⟩ : ∃ l, ch.start - 1 = l + 1 := ⟨ch.start - 2, by omega⟩
  obtain ⟨hs1, hsnl⟩ := lineStart_pos_newline tf.content l s (hl ▸ hs)
  have hsle : s ≤ tf.content.length := lineStart_le_length _ _ _ hs
  have hele : e ≤ tf.content.length := lineStart_le_length _ _ _ he
  have hform_s : form_index tf.content (ch.start - 1) 0 = s := by
    simp [form_index, hs]
  have hform_e :
      form_index tf.content (ch.start - 1 + ch.removed_lines.length) 0 = e := by
    simp [form_index, he]
  have hrefine_s : refine_index tf.content (ch.start - 1) 0 = s := by
    simp [refine_index, hs]
    omega
  have hrefine_e :
      refine_index tf.content (ch.start - 1 + ch.removed_lines.length) 0 = e := by
    simp [refine_index, he]
    omega
  have htake : (tf.content.take s).length = s := by
    rw [List.length_take]
    omega
  have hgetPre : (tf.content.take s)[s - 1]? = some '\n' := by
    rw [List.getElem?_take]
    rw [if_pos (by omega)]
    exact hsnl
  have hpre : (remove_buggy_hunk tf ch).1 = tf.content.take s := by
    simp only [remove_buggy_hunk, hform_s]
  have hsuf : (remove_buggy_hunk tf ch).2.1 = '\n' :: tf.content.drop e := by
    simp only [remove_buggy_hunk, hform_e]
  have hcontent : (remove_buggy_hunk tf ch).2.2.content =
      tf.content.take s ++ ['\n'] ++ tf.content.drop e := by
    simp only [remove_buggy_hunk, textFileChange, move_cursor, hrefine_s, hrefine_e]
  have hcursor : (remove_buggy_hunk tf ch).2.2.cursor = s := by
    simp only [remove_buggy_hunk, textFileChange, move_cursor, hform_s]
  refine ⟨hpre, ?_, hsuf, hcursor, ?_, ?_⟩
  · rw [hpre, List.getLast?_eq_getElem?, htake]
    exact hgetPre
  · rw [hcontent, hcursor]
    rw [List.getElem?_append_left (by simp [htake])]
    rw [List.getElem?_append_right (le_of_eq htake)]
    simp [htake]
  · rw [hcontent, hcursor]
    rw [List.getElem?_append_left (by simp [htake]; omega)]
    rw [List.getElem?_append_left (by rw [htake]; omega)]
    exact hgetPre

/-- C6 witness: the hunk-removal invariants instantiated on the concrete
content `a\nb\nc\nd\n` with a change removing the single line `b`. -/
theorem c6_remove_buggy_hunk_invariants_witness :
    (remove_buggy_hunk ⟨demoContent, 0⟩ ⟨2, ["b"], []⟩).1 = demoContent.take 2 ∧
    (remove_buggy_hunk ⟨demoContent, 0⟩ ⟨2, ["b"], []⟩).1.getLast? = some '\n' ∧
    (remove_buggy_hunk ⟨demoContent, 0⟩ ⟨2, ["b"], []⟩).2.1 =
      '\n' :: demoContent.drop 4 ∧
    (remove_buggy_hunk ⟨demoContent, 0⟩ ⟨2, ["b"], []⟩).2.2.cursor = 2 ∧
    (remove_buggy_hunk ⟨demoContent, 0⟩ ⟨2, ["b"], []⟩).2.2.content[
      (remove_buggy_hunk ⟨demoContent, 0⟩ ⟨2, ["b"], []⟩).2.2.cursor]? =
      some '\n' ∧
    (remove_buggy_hunk ⟨demoContent, 0⟩ ⟨2, ["b"], []⟩).2.2.content[
      (remove_buggy_hunk ⟨demoContent, 0⟩ ⟨2, ["b"], []⟩).2.2.cursor - 1]? =
      some '\n' :=
  c6_remove_buggy_hunk_invariants ⟨demoContent, 0⟩ ⟨2, ["b"], []⟩ 2 4
    (by decide) (by decide) (by decide) (by decide)

/-- A successful optional lookup implies the index is in bounds. -/
theorem getElem?_some_lt {α : Type} (l : List α) (i : Nat) (x : α)
    (h : l[i]? = some x) : i < l.length :=
  (List.getElem?_eq_some_iff.mp h).choose

/-- Effect of one transform step on the patches list. -/
theorem contains_eq_false_of_not_mem (l : List String) (s : String)
    (h : s ∉ l) : l.contains s = false := by
  rcases Bool.eq_false_or_eq_true (l.contains s) with ht | hf
  · exact absurd (List.elem_iff.mp ht) h
  · exact hf

/-- Effect of one transform step on the patches list. -/
theorem transformStep_fst (st : TransState) (p : Candidate) :
    (transformStep st p).1 =
      st.1 ++ [⟨p, !isBroken p && st.2.contains (concatHunks p)⟩] := by
  cases h1 : isBroken p
  · by_cases h2 : concatHunks p ∈ st.2
    · have hc : st.2.contains (concatHunks p) = true := List.elem_iff.mpr h2
      simp [transformStep, h1, h2, hc]
    · have hc := contains_eq_false_of_not_mem st.2 (concatHunks p) h2
      simp [transformStep, h1, h2, hc]
  · simp [transformStep, h1]

/-- Effect of one transform step on the seen set. -/
theorem transformStep_snd (st : TransState) (p : Candidate) :
    (transformStep st p).2 =
      if isBroken p = false ∧ st.2.contains (concatHunks p) = false
      then st.2 ++ [concatHunks p] else st.2 := by
  cases h1 : isBroken p
  · by_cases h2 : concatHunks p ∈ st.2
    · have hc : st.2.contains (concatHunks p) = true := List.elem_iff.mpr h2
      simp [transformStep, h1, h2, hc]
    · have hc := contains_eq_false_of_not_mem st.2 (concatHunks p) h2
      simp [transformStep, h1, h2, hc]
  · simp [transformStep, h1]

/-- Each transform step appends exactly one patch. -/
theorem transformSteps_length (l : List Candidate) :
    ∀ st : TransState,
      (l.foldl transformStep st).1.length = st.1.length + l.length := by
  induction l with
  | nil => intro st; simp
  | cons p l ih =>
    intro st
    rw [List.foldl_cons, ih, transformStep_fst]
    simp only [List.length_append, List.length_cons, List.length_nil]
    omega

/-- Structure of the state produced by a fresh run of transform steps: the
patches record every candidate in rank order with the duplicate flag given by
`dupSpec`, and the seen set holds exactly the concatenated texts of the
non-broken candidates. -/
theorem transformSteps_spec (cands : List Candidate) :
    ((cands.foldl transformStep ([], [])).1.length = cands.length) ∧
    (∀ i p a, cands[i]? = some p →
      (cands.foldl transformStep ([], [])).1[i]? = some a →
      a.file_patches = p ∧ (a.is_duplicate = true ↔ dupSpec cands i p)) ∧
    (∀ s, s ∈ (cands.foldl transformStep ([], [])).2 ↔
      ∃ (j : Nat) (q : Candidate), cands[j]? = some q ∧ isBroken q = false ∧
        concatHunks q = s) := by
  induction cands using List.reverseRecOn with
  | nil =>
    refine ⟨rfl, ?_, ?_⟩
    · intro i p a hp ha
      simp at hp
    · intro s
      simp
  | append_singleton l x ih =>
    obtain ⟨ih1, ih2, ih3⟩ := ih
    have hfold : ((l ++ [x]).foldl transformStep (([], []) : TransState)) =
        transformStep (l.foldl transformStep ([], [])) x := by
      rw [List.foldl_append]
      rfl
    set st : TransState := l.foldl transformStep ([], []) with hst
    rw [hfold]
    have hflag := transformStep_fst st x
    have hseen := transformStep_snd st x
    refine ⟨?_, ?_, ?_⟩
    · rw [hflag]
      simp only [List.length_append, List.length_cons, List.length_nil]
      omega
    · intro i p a hp ha
      rw [hflag] at ha
      rcases Nat.lt_trichotomy i l.length with hi | hi | hi
      · rw [List.getElem?_append_left hi] at hp
        rw [List.getElem?_append_left (by rw [ih1]; exact hi)] at ha
        obtain ⟨hfp, hiff⟩ := ih2 i p a hp ha
        refine ⟨hfp, ?_⟩
        rw [hiff]
        unfold dupSpec
        constructor
        · rintro ⟨hb, j, q, hj, hq, hbq, hcq⟩
          refine ⟨hb, j, q, hj, ?_, hbq, hcq⟩
          rw [List.getElem?_append_left (by omega)]
          exact hq
        · rintro ⟨hb, j, q, hj, hq, hbq, hcq⟩
          rw [List.getElem?_append_left (by omega)] at hq
          exact ⟨hb, j, q, hj, hq, hbq, hcq⟩
      · subst hi
        have hp' : p = x := by
          rw [List.getElem?_append_right (le_refl _)] at hp
          simp at hp
          exact hp.symm
        subst hp'
        have ha' : a = ⟨p, !isBroken p && st.2.contains (concatHunks p)⟩ := by
          rw [List.getElem?_append_right (le_of_eq ih1)] at ha
          rw [ih1, Nat.sub_self, List.getElem?_cons_zero] at ha
          exact (Option.some.inj ha).symm
        subst ha'
        refine ⟨rfl, ?_⟩
        rw [Bool.and_eq_true, Bool.not_eq_true']
        unfold dupSpec
        constructor
        · rintro ⟨hb, hcontains⟩
          have hmem : concatHunks p ∈ st.2 := List.elem_iff.mp hcontains
          obtain ⟨j, q, hq, hbq, hcq⟩ := (ih3 (concatHunks p)).mp hmem
          have hjlt : j < l.length := getElem?_some_lt _ _ _ hq
          refine ⟨hb, j, q, hjlt, ?_, hbq, hcq⟩
          rw [List.getElem?_append_left hjlt]
          exact hq
        · rintro ⟨hb, j, q, hj, hq, hbq, hcq⟩
          rw [List.getElem?_append_left hj] at hq
          refine ⟨hb, ?_⟩
          have hmem : concatHunks p ∈ st.2 :=
            (ih3 (concatHunks p)).mpr ⟨j, q, hq, hbq, hcq⟩
          exact List.elem_iff.mpr hmem
      · have hlt := getElem?_some_lt _ _ _ hp
        simp only [List.length_append, List.length_cons, List.length_nil] at hlt
        omega
    · intro s
      rw [hseen]
      split
      · next hcond =>
        obtain ⟨hbx, hcx⟩ := hcond
        rw [List.mem_append, ih3, List.mem_singleton]
        constructor
        · rintro (⟨j, q, hq, hb, hc⟩ | rfl)
          · have hjlt : j < l.length := getElem?_some_lt _ _ _ hq
            refine ⟨j, q, ?_, hb, hc⟩
            rw [List.getElem?_append_left hjlt]
            exact hq
          · refine ⟨l.length, x, ?_, hbx, rfl⟩
            simp
        · rintro ⟨j, q, hq, hb, hc⟩
          have hjlt := getElem?_some_lt _ _ _ hq
          simp only [List.length_append, List.length_cons, List.length_nil] at hjlt
          rcases Nat.lt_or_ge j l.length with hj | hj
          · rw [List.getElem?_append_left hj] at hq
            exact Or.inl ⟨j, q, hq, hb, hc⟩
          · have hj' : j = l.length := by omega
            subst hj'
            rw [List.getElem?_append_right (le_refl _)] at hq
            simp at hq
            subst hq
            exact Or.inr hc.symm
      · next hcond =>
        rw [ih3]
        constructor
        · rintro ⟨j, q, hq, hb, hc⟩
          have hjlt : j < l.length := getElem?_some_lt _ _ _ hq
          refine ⟨j, q, ?_, hb, hc⟩
          rw [List.getElem?_append_left hjlt]
          exact hq
        · rintro ⟨j, q, hq, hb, hc⟩
          have hjlt := getElem?_some_lt _ _ _ hq
          simp only [List.length_append, List.length_cons, List.length_nil] at hjlt
          rcases Nat.lt_or_ge j l.length with hj | hj
          · rw [List.getElem?_append_left hj] at hq
            exact ⟨j, q, hq, hb, hc⟩
          · have hj' : j = l.length := by omega
            subst hj'
            rw [List.getElem?_append_right (le_refl _)] at hq
            simp at hq
            subst hq
            have hct : st.2.contains (concatHunks x) = true := by
              rcases Bool.eq_false_or_eq_true (st.2.contains (concatHunks x)) with ht | hf
              · exact ht
              · exact absurd ⟨hb, hf⟩ hcond
            have hmem : concatHunks x ∈ st.2 := List.elem_iff.mp hct
            obtain ⟨j2, q2, hq2, hb2, hc2⟩ := (ih3 (concatHunks x)).mp hmem
            exact ⟨j2, q2, hq2, hb2, hc2.trans hc⟩

/-- C2: a fresh run of the per-bug transform records every candidate patch in
rank order; a candidate is flagged duplicate exactly when it is not broken
and some earlier non-broken candidate of the same bug has the same
concatenated hunk text (so the first such candidate is never flagged and a
broken candidate is never flagged); and the seen set receives exactly the
concatenated texts of non-broken candidates. -/
theorem c2_transform_dedup (cands : List Candidate) :
    ((transformBug cands ([], [])).1.length = cands.length) ∧
    (∀ i p a, cands[i]? = some p →
      (transformBug cands ([], [])).1[i]? = some a →
      a.file_patches = p ∧ (a.is_duplicate = true ↔ dupSpec cands i p)) ∧
    (∀ s, s ∈ (transformBug cands ([], [])).2 ↔
      ∃ (j : Nat) (q : Candidate), cands[j]? = some q ∧ isBroken q = false ∧
        concatHunks q = s) := by
  have h := transformSteps_spec cands
  simpa [transformBug] using h

/-- C2 witness: in the stream `demoCands` the rank-2 candidate repeats the
rank-0 text and is flagged duplicate. -/
theorem c2_transform_dedup_witness :
    (⟨oneHunkCand "X", true⟩ : AvgPatch).file_patches = oneHunkCand "X" ∧
    ((⟨oneHunkCand "X", true⟩ : AvgPatch).is_duplicate = true ↔
      dupSpec demoCands 2 (oneHunkCand "X")) :=
  (c2_transform_dedup demoCands).2.1 2 (oneHunkCand "X")
    ⟨oneHunkCand "X", true⟩ (by decide) (by decide)

/-- Length of the per-bug transform result: already-transformed ranks are
kept, the rest are appended. -/
theorem transformBug_length (c : List Candidate) (st : TransState) :
    (transformBug c st).1.length = max st.1.length c.length := by
  rw [transformBug, transformSteps_length (c.drop st.1.length) st,
    List.length_drop]
  omega

/-- A per-bug transform whose input is already fully transformed is the
identity. -/
theorem transformBug_of_ge (c : List Candidate) (st : TransState)
    (h : c.length ≤ st.1.length) : transformBug c st = st := by
  rw [transformBug, List.drop_eq_nil_of_le h]
  rfl

/-- Folding per-bug transforms never shrinks the patches list. -/
theorem foldl_transformBug_mono (cs : List (List Candidate)) :
    ∀ x : TransState,
      x.1.length ≤ (cs.foldl (fun s c => transformBug c s) x).1.length := by
  induction cs with
  | nil => intro x; exact le_refl _
  | cons c cs ih =>
    intro x
    calc x.1.length ≤ (transformBug c x).1.length := by
          rw [transformBug_length]; omega
      _ ≤ _ := ih _

/-- After folding per-bug transforms, the patches list is at least as long as
every processed candidate stream. -/
theorem foldl_transformBug_mem_le (cs : List (List Candidate)) :
    ∀ (x : TransState) (c : List Candidate), c ∈ cs →
      c.length ≤ (cs.foldl (fun s c => transformBug c s) x).1.length := by
  induction cs with
  | nil => intro x c hc; simp at hc
  | cons d cs ih =>
    intro x c hc
    rcases List.mem_cons.mp hc with rfl | hc
    · calc c.length ≤ (transformBug c x).1.length := by
            rw [transformBug_length]; omega
        _ ≤ _ := foldl_transformBug_mono cs _
    · exact ih _ c hc

/-- Folding per-bug transforms over streams that are all already transformed
is the identity. -/
theorem foldl_transformBug_idem (cs : List (List Candidate)) :
    ∀ x : TransState, (∀ c ∈ cs, c.length ≤ x.1.length) →
      cs.foldl (fun s c => transformBug c s) x = x := by
  induction cs with
  | nil => intro x _; rfl
  | cons c cs ih =>
    intro x h
    rw [List.foldl_cons, transformBug_of_ge c x (h c (by simp))]
    exact ih x fun d hd => h d (by simp [hd])

/-- Pointwise description of the whole-report transform: the state of bug `b`
is obtained by running its candidate streams in order. -/
theorem transformReport_apply (raw : List (String × List Candidate)) :
    ∀ (st : String → TransState) (b : String),
      transformReport raw st b =
        (candsFor b raw).foldl (fun s c => transformBug c s) (st b) := by
  induction raw with
  | nil => intro st b; rfl
  | cons e raw ih =>
    intro st b
    have hstep : transformReport (e :: raw) st =
        transformReport raw
          (fun b2 => if e.1 = b2 then transformBug e.2 (st e.1) else st b2) :=
      rfl
    rw [hstep, ih]
    by_cases he : e.1 = b
    · subst he
      simp only [candsFor, List.filterMap_cons, if_pos rfl]
      rfl
    · simp only [candsFor, List.filterMap_cons, if_neg he]

/-- C9: running `transform` a second time on an unchanged raw repair result
leaves the transformed result exactly as the first run left it — no patch
entries are appended, no duplicate flag changes and no per-bug seen set
changes. -/
theorem c9_transform_idempotent (raw : List (String × List Candidate))
    (st : String → TransState) :
    transformReport raw (transformReport raw st) = transformReport raw st := by
  funext b
  rw [transformReport_apply raw (transformReport raw st) b,
    transformReport_apply raw st b]
  exact foldl_transformBug_idem (candsFor b raw)
    ((candsFor b raw).foldl (fun s c => transformBug c s) (st b))
    fun c hc => foldl_transformBug_mem_le (candsFor b raw) (st b) c hc

/-- Chunks are short and are sublists of the chunked list. -/
theorem chunkedAux_spec {α : Type} (n : Nat) :
    ∀ (fuel : Nat) (l c : List α), c ∈ chunkedAux n fuel l →
      c.length ≤ n ∧ List.Sublist c l := by
  intro fuel
  induction fuel with
  | zero => intro l c hc; simp [chunkedAux] at hc
  | succ fuel ih =>
    intro l c hc
    match l with
    | [] => simp [chunkedAux] at hc
    | x :: xs =>
      rw [chunkedAux] at hc
      rcases List.mem_cons.mp hc with rfl | hc
      · exact ⟨List.length_take_le _ _, List.take_sublist _ _⟩
      · obtain ⟨h1, h2⟩ := ih _ c hc
        exact ⟨h1, h2.trans (List.drop_sublist _ _)⟩

/-- Specification of `chunked` membership. -/
theorem chunked_spec {α : Type} (n : Nat) (l c : List α)
    (hc : c ∈ chunked n l) : c.length ≤ n ∧ List.Sublist c l :=
  chunkedAux_spec n l.length l c hc

/-- Items of a pending queue carry the queue's bug id and satisfy the
selection conditions of `Runner.validate`. -/
theorem mem_pendingQueue (validated : String → Nat → Bool) (bid : String)
    (patches : List AvgPatch) (x : WorkItem)
    (h : x ∈ pendingQueue validated bid patches) :
    x.1 = bid ∧ x.2.2.is_duplicate = false ∧ x.2.2.is_broken = false ∧
      validated bid x.2.1 = false ∧ patches[x.2.1]? = some x.2.2 := by
  obtain ⟨ie, hie, hx⟩ := List.mem_filterMap.mp h
  rw [List.mem_enum_iff_getElem?] at hie
  split at hx
  · next hcond =>
    have hx' := Option.some.inj hx
    subst hx'
    simp only [Bool.and_eq_true, Bool.not_eq_true'] at hcond
    exact ⟨rfl, hcond.1.1, hcond.1.2, hcond.2, hie⟩
  · simp at hx

/-- Queues of different bugs never share a bug id, given the distinct keys of
the transformed-result mapping. -/
theorem unvalidated_cross_distinct (accepted : String → Bool)
    (validated : String → Nat → Bool)
    (transformed : List (String × List AvgPatch))
    (hnd : (transformed.map Prod.fst).Nodup) :
    (unvalidatedResults accepted validated transformed).Pairwise
      (fun l1 l2 => ∀ x ∈ l1, ∀ y ∈ l2, x.1 ≠ y.1) := by
  have hpw : transformed.Pairwise (fun e1 e2 => e1.1 ≠ e2.1) :=
    (List.pairwise_map).mp hnd
  refine List.Pairwise.filterMap _ ?_ hpw
  intro e1 e2 hne l1 hl1 l2 hl2
  intro x hx y hy
  have h1 : l1 = pendingQueue validated e1.1 e1.2 := by
    split at hl1
    · exact (Option.some.inj hl1).symm
    · simp at hl1
  have h2 : l2 = pendingQueue validated e2.1 e2.2 := by
    split at hl2
    · exact (Option.some.inj hl2).symm
    · simp at hl2
  subst h1
  subst h2
  rw [(mem_pendingQueue _ _ _ _ hx).1, (mem_pendingQueue _ _ _ _ hy).1]
  exact hne

/-- Every round has pairwise-distinct bug ids when the queues do. -/
theorem scheduleRound_pairwise (lists : List (List WorkItem)) (k : Nat)
    (h : lists.Pairwise (fun l1 l2 => ∀ x ∈ l1, ∀ y ∈ l2, x.1 ≠ y.1)) :
    (scheduleRound lists k).Pairwise (fun x y => x.1 ≠ y.1) := by
  refine List.Pairwise.filterMap _ ?_ h
  intro l1 l2 hcross x hx y hy
  exact hcross x (List.getElem?_mem hx) y (List.getElem?_mem hy)

/-- Every item of a round comes from some queue. -/
theorem mem_scheduleRound (lists : List (List WorkItem)) (k : Nat)
    (x : WorkItem) (h : x ∈ scheduleRound lists k) : ∃ l ∈ lists, x ∈ l := by
  obtain ⟨l, hl, hx⟩ := List.mem_filterMap.mp h
  exact ⟨l, hl, List.getElem?_mem hx⟩

/-- C5: every chunk dispatched by `Runner.validate` holds at most `n_cores`
items with pairwise-distinct bug ids (given the distinct keys of the
transformed mapping), and every dispatched item's bug matches the pattern and
its patch is not duplicate, not broken and not previously validated. -/
theorem c5_validate_scheduling (nCores : Nat) (accepted : String → Bool)
    (validated : String → Nat → Bool)
    (transformed : List (String × List AvgPatch))
    (hnd : (transformed.map Prod.fst).Nodup) :
    ∀ chunk ∈ scheduleChunks nCores
        (unvalidatedResults accepted validated transformed),
      chunk.length ≤ nCores ∧
      (chunk.map fun it => it.1).Nodup ∧
      ∀ it ∈ chunk, accepted it.1 = true ∧ it.2.2.is_duplicate = false ∧
        it.2.2.is_broken = false ∧ validated it.1 it.2.1 = false := by
  intro chunk hchunk
  obtain ⟨round, hround, hcchunk⟩ := List.mem_flatMap.mp hchunk
  obtain ⟨hlen, hsub⟩ := chunked_spec nCores round chunk hcchunk
  obtain ⟨k, hk, rfl⟩ := List.mem_map.mp hround
  have hcross := unvalidated_cross_distinct accepted validated transformed hnd
  have hpair := scheduleRound_pairwise _ k hcross
  have hchunkpair : chunk.Pairwise (fun x y => x.1 ≠ y.1) := hpair.sublist hsub
  refine ⟨hlen, (List.pairwise_map).mpr hchunkpair, ?_⟩
  intro it hit
  have hinround := hsub.subset hit
  obtain ⟨l, hl, hitl⟩ := mem_scheduleRound _ _ _ hinround
  obtain ⟨e, he, hle⟩ := List.mem_filterMap.mp hl
  have hl' : accepted e.1 = true ∧ l = pendingQueue validated e.1 e.2 := by
    split at hle
    · next hc => exact ⟨hc, (Option.some.inj hle).symm⟩
    · simp at hle
  obtain ⟨hacc, rfl⟩ := hl'
  obtain ⟨hid, hdup, hbrk, hval, -⟩ := mem_pendingQueue _ _ _ _ hitl
  refine ⟨by rw [hid]; exact hacc, hdup, hbrk, by rw [hid]; exact hval⟩

/-- C5 witness: the scheduling guarantees instantiated on `demoTransformed`
(bug `A` with three pending items, bug `B` with one, two cores) at its first
dispatched chunk. -/
theorem c5_validate_scheduling_witness :
    demoChunk.length ≤ 2 ∧
    (demoChunk.map fun it => it.1).Nodup ∧
    ∀ it ∈ demoChunk, (fun _ : String => true) it.1 = true ∧
      it.2.2.is_duplicate = false ∧ it.2.2.is_broken = false ∧
      (fun (_ : String) (_ : Nat) => false) it.1 it.2.1 = false :=
  c5_validate_scheduling 2 (fun _ => true) (fun _ _ => false) demoTransformed
    (by decide) demoChunk (by decide)

/-- A run of the parse loop with no recognized parse error writes every
file. -/
theorem parseWriteLoop_total (env : ValidationEnv) :
    ∀ (files written : List String),
      (∀ f ∈ files, (env.parse f).isSynErr = false) →
      parseWriteLoop env files written = Sum.inr (written ++ files) := by
  intro files
  induction files with
  | nil => intro written h; simp [parseWriteLoop]
  | cons f fs ih =>
    intro written h
    have hf : (env.parse f).isSynErr = false := h f (by simp)
    rw [parseWriteLoop]
    cases hp : env.parse f with
    | syntaxOrLexError m => rw [hp] at hf; simp [ParseRes.isSynErr] at hf
    | ok =>
      rw [ih (written ++ [f]) fun g hg => h g (by simp [hg])]
      simp
    | otherError m =>
      rw [ih (written ++ [f]) fun g hg => h g (by simp [hg])]
      simp

/-- A parse-loop abort decomposes the file list into a cleanly written run,
the erroring file and the untouched rest. -/
theorem parseWriteLoop_inl (env : ValidationEnv) :
    ∀ (files written w : List String) (m : String),
      parseWriteLoop env files written = Sum.inl (w, m) →
      ∃ pre f rest, files = pre ++ f :: rest ∧
        (∀ g ∈ pre, (env.parse g).isSynErr = false) ∧
        env.parse f = ParseRes.syntaxOrLexError m ∧ w = written ++ pre := by
  intro files
  induction files with
  | nil => intro written w m h; simp [parseWriteLoop] at h
  | cons f fs ih =>
    intro written w m h
    rw [parseWriteLoop] at h
    cases hp : env.parse f with
    | syntaxOrLexError m2 =>
      rw [hp] at h
      simp at h
      obtain ⟨hw, hm⟩ := h
      refine ⟨[], f, fs, rfl, by simp, ?_, by simp [hw]⟩
      rw [hp, hm]
    | ok =>
      rw [hp] at h
      obtain ⟨pre, g, rest, hfs, hpre, hg, hw⟩ := ih (written ++ [f]) w m h
      refine ⟨f :: pre, g, rest, by simp [hfs], ?_, hg, by simp [hw]⟩
      intro g2 hg2
      rcases List.mem_cons.mp hg2 with rfl | hg2
      · rw [hp]; rfl
      · exact hpre g2 hg2
    | otherError m2 =>
      rw [hp] at h
      obtain ⟨pre, g, rest, hfs, hpre, hg, hw⟩ := ih (written ++ [f]) w m h
      refine ⟨f :: pre, g, rest, by simp [hfs], ?_, hg, by simp [hw]⟩
      intro g2 hg2
      rcases List.mem_cons.mp hg2 with rfl | hg2
      · rw [hp]; rfl
      · exact hpre g2 hg2

/-- When some file has a recognized parse error, the parse loop aborts. -/
theorem parseWriteLoop_aborts (env : ValidationEnv) :
    ∀ (files written : List String),
      (∃ f ∈ files, (env.parse f).isSynErr = true) →
      ∃ w m, parseWriteLoop env files written = Sum.inl (w, m) := by
  intro files
  induction files with
  | nil => intro written h; simp at h
  | cons f fs ih =>
    intro written h
    rw [parseWriteLoop]
    cases hp : env.parse f with
    | syntaxOrLexError m => exact ⟨written, m, rfl⟩
    | ok =>
      obtain ⟨g, hg, hgerr⟩ := h
      rcases List.mem_cons.mp hg with rfl | hg
      · rw [hp] at hgerr; simp [ParseRes.isSynErr] at hgerr
      · exact ih (written ++ [f]) ⟨g, hg, hgerr⟩
    | otherError m =>
      obtain ⟨g, hg, hgerr⟩ := h
      rcases List.mem_cons.mp hg with rfl | hg
      · rw [hp] at hgerr; simp [ParseRes.isSynErr] at hgerr
      · exact ih (written ++ [f]) ⟨g, hg, hgerr⟩

/-- C1: when some candidate file text has a recognized syntax or lexical
parse error, `validate_patch` returns `ParseError` with empty stdout and the
parser error text as stderr, invoking neither compile nor test; when every
text passes the parser but the compile fails, it returns `CompilationError`
with the compile output; when the compile succeeds and the test run times
out, it returns `TestingError` with both stdout and stderr equal to the
literal `"Timeout"` joined to the compile output by the separator. -/
theorem c1_validate_patch_outcomes (rule : String) (env : ValidationEnv)
    (files : List String) :
    ((∃ f ∈ files, (env.parse f).isSynErr = true) →
      (validate_patch rule env files).result.outcome = Outcome.ParseError ∧
      (validate_patch rule env files).result.stdout = "" ∧
      (∃ f ∈ files, env.parse f = ParseRes.syntaxOrLexError
        (validate_patch rule env files).result.stderr) ∧
      (validate_patch rule env files).compileInvoked = false ∧
      (validate_patch rule env files).testInvoked = false) ∧
    ((∀ f ∈ files, (env.parse f).isSynErr = false) →
      env.compileRes.1 = false →
      (validate_patch rule env files).result =
        ⟨Outcome.CompilationError, env.compileRes.2.1, env.compileRes.2.2⟩ ∧
      (validate_patch rule env files).testInvoked = false) ∧
    ((∀ f ∈ files, (env.parse f).isSynErr = false) →
      env.compileRes.1 = true → env.testRes = none →
      (validate_patch rule env files).result =
        ⟨Outcome.TestingError, env.compileRes.2.1 ++ rule ++ "Timeout",
          env.compileRes.2.2 ++ rule ++ "Timeout"⟩) := by
  refine ⟨?_, ?_, ?_⟩
  · intro hex
    obtain ⟨w, m, hloop⟩ := parseWriteLoop_aborts env files [] hex
    obtain ⟨pre, f, rest, hsplit, -, hf, -⟩ :=
      parseWriteLoop_inl env files [] w m hloop
    simp only [validate_patch, hloop]
    refine ⟨by trivial, by trivial, ⟨f, ?_, by exact hf⟩, by trivial, by trivial⟩
    rw [hsplit]
    simp
  · intro hall hcomp
    rw [validate_patch, parseWriteLoop_total env files [] hall]
    simp [hcomp]
  · intro hall hcomp htest
    rw [validate_patch, parseWriteLoop_total env files [] hall]
    simp [hcomp, htest]

/-- C1 witness: the three outcome branches instantiated on one-file patches
with concrete parser, compiler and test environments. -/
theorem c1_validate_patch_outcomes_witness :
    ((validate_patch "|" envParseErr ["A"]).result.outcome =
        Outcome.ParseError ∧
      (validate_patch "|" envParseErr ["A"]).result.stdout = "" ∧
      (∃ f ∈ ["A"], envParseErr.parse f = ParseRes.syntaxOrLexError
        (validate_patch "|" envParseErr ["A"]).result.stderr) ∧
      (validate_patch "|" envParseErr ["A"]).compileInvoked = false ∧
      (validate_patch "|" envParseErr ["A"]).testInvoked = false) ∧
    ((validate_patch "|" envCompileFail ["A"]).result =
      ⟨Outcome.CompilationError, "co", "ce"⟩ ∧
      (validate_patch "|" envCompileFail ["A"]).testInvoked = false) ∧
    ((validate_patch "|" envTimeout ["A"]).result =
      ⟨Outcome.TestingError, "co" ++ "|" ++ "Timeout",
        "ce" ++ "|" ++ "Timeout"⟩) :=
  ⟨(c1_validate_patch_outcomes "|" envParseErr ["A"]).1 (by decide),
   (c1_validate_patch_outcomes "|" envCompileFail ["A"]).2.1 (by decide)
     (by decide),
   (c1_validate_patch_outcomes "|" envTimeout ["A"]).2.2 (by decide)
     (by decide) (by decide)⟩

/-- C10 counterexample: a candidate with two file entries whose first text
parses and whose second has a recognized parse error returns `ParseError`
with the first file already written — the claim that nothing has been
written on a `ParseError` return fails. -/
theorem c10_write_before_parse_counterexample :
    (validate_patch "|" envTwoFiles ["good", "bad"]).result.outcome =
      Outcome.ParseError ∧
    (validate_patch "|" envTwoFiles ["good", "bad"]).written = ["good"] := by
  decide

/-- C10 (amended): when `validate_patch` returns `ParseError`, the written
files are exactly those preceding the first file with a recognized parse
error, each of which parsed without a recognized error; in particular a
single-file candidate has had nothing written. -/
theorem c10_parse_error_writes (rule : String) (env : ValidationEnv)
    (files : List String)
    (h : (validate_patch rule env files).result.outcome = Outcome.ParseError) :
    (∀ g ∈ (validate_patch rule env files).written,
      (env.parse g).isSynErr = false) ∧
    (files.length ≤ 1 → (validate_patch rule env files).written = []) ∧
    ∃ f rest, files = (validate_patch rule env files).written ++ f :: rest ∧
      env.parse f = ParseRes.syntaxOrLexError
        (validate_patch rule env files).result.stderr := by
  rcases hloop : parseWriteLoop env files [] with pm | w
  · obtain ⟨pre, f, rest, hsplit, hpre, hf, hw⟩ :=
      parseWriteLoop_inl env files [] pm.1 pm.2 hloop
    simp only [validate_patch, hloop]
    simp only [List.nil_append] at hw
    refine ⟨?_, ?_, f, rest, ?_, ?_⟩
    · intro g hg
      rw [hw] at hg
      exact hpre g hg
    · intro hlen
      rw [hsplit] at hlen
      simp only [List.length_append, List.length_cons] at hlen
      rw [hw]
      have : pre.length = 0 := by omega
      exact List.eq_nil_of_length_eq_zero this
    · rw [hw, hsplit]
    · exact hf
  · exfalso
    simp only [validate_patch, hloop] at h
    rcases hc : env.compileRes.1 with hfalse | htrue
    · simp [hc] at h
    · rcases ht : env.testRes with hnone | t
      · simp [hc, ht] at h
      · rcases hts : t.1 with f1 | t1 <;> simp [hc, ht, hts] at h

/-- C10 witness: the amended claim instantiated on the two-file
counterexample environment. -/
theorem c10_parse_error_writes_witness :
    (∀ g ∈ (validate_patch "|" envTwoFiles ["good", "bad"]).written,
      (envTwoFiles.parse g).isSynErr = false) ∧
    ((["good", "bad"] : List String).length ≤ 1 →
      (validate_patch "|" envTwoFiles ["good", "bad"]).written = []) ∧
    ∃ f rest, ["good", "bad"] =
      (validate_patch "|" envTwoFiles ["good", "bad"]).written ++ f :: rest ∧
      envTwoFiles.parse f = ParseRes.syntaxOrLexError
        (validate_patch "|" envTwoFiles ["good", "bad"]).result.stderr :=
  c10_parse_error_writes "|" envTwoFiles ["good", "bad"] (by decide)
